import Mathlib

/-!
# Greedy knight's tour (`knight_greedy.c`)

A shallow embedding of `knight_greedy.c` and a verification of its
specification.

Conventions of the embedding.

* `size_t` and `unsigned int` values are natural numbers, `int` values are
  integers.  The conversions the source writes as casts are explicit:
  `to_int` is `(int)v` (two's complement, 32 bit) and `to_size_t` is
  `(size_t)i` (reduction modulo `2 ^ 64`); `++step` on an `unsigned int` is
  reduction modulo `2 ^ 32`.
* The sums `(int)x + MOVES_X[m]` are computed in the integers.  An `int` sum
  that leaves the 32-bit range lies outside `0 .. SIZE - 1` whether or not it
  wraps, so the bounds test of `move_is_possible` answers the same either way.
* `board_t` is `int[SIZE][SIZE]`: a total map from a row and a column, both
  below `SIZE`, to an `int`.  An array access with raw indices is
  `board_get` / `board_set`, which return `none` for an index outside the
  array.  The two constant tables are lists, read through `table_get`.
* A function that accesses an array returns `Except Fault _`; an access out of
  range is `Fault.out_of_bounds`.
* The `while (1)` loop runs on fuel: every execution of its body consumes one
  unit, and `Fault.out_of_fuel` is returned when none is left.  The loop also
  reports how many times its body was executed.
-/

namespace KnightGreedy

/-- Board size (`#define SIZE 8`). -/
def SIZE : Nat := 8

/-- Number of moves that a knight can make (`#define MOVE_COUNT 8`). -/
def MOVE_COUNT : Nat := 8

/-- Horizontal knight move offsets. -/
def MOVES_X : List Int := [2, 1, -1, -2, -2, -1, 1, 2]

/-- Vertical knight move offsets. -/
def MOVES_Y : List Int := [1, 2, 2, 1, -1, -2, -2, -1]

/-- Board type: 0 means unvisited; positive values indicate visit order.
The first index is the row, the second the column (`int[SIZE][SIZE]`). -/
abbrev board_t : Type := Fin SIZE → Fin SIZE → Int

/-- Ways in which a run of the embedded code can fail to produce a value. -/
inductive Fault where
  | out_of_bounds : Fault
  | out_of_fuel : Fault
  deriving DecidableEq

/-- The cast `(int)v` of an unsigned value: the 32-bit two's complement
reading of `v`. -/
def to_int (v : Nat) : Int :=
  if v % 2 ^ 32 < 2 ^ 31 then ((v % 2 ^ 32 : Nat) : Int)
  else ((v % 2 ^ 32 : Nat) : Int) - 2 ^ 32

/-- The cast `(size_t)i` of an `int`: reduction modulo `2 ^ 64`. -/
def to_size_t (i : Int) : Nat := (i % 2 ^ 64).toNat

/-- Read of a constant table `t[i]`; `none` outside the table. -/
def table_get (t : List Int) (i : Nat) : Option Int := t[i]?

/-- Read `visited[row][col]` with `int` indices; `none` outside the array. -/
def board_get (visited : board_t) (row col : Int) : Option Int :=
  if h : 0 ≤ row ∧ row < SIZE ∧ 0 ≤ col ∧ col < SIZE then
    some (visited ⟨row.toNat, by omega⟩ ⟨col.toNat, by omega⟩)
  else none

/-- Write `visited[row][col] = v` with `size_t` indices; `none` outside the
array. -/
def board_set (visited : board_t) (row col : Nat) (v : Int) : Option board_t :=
  if row < SIZE ∧ col < SIZE then
    some (fun r c => if r.val = row ∧ c.val = col then v else visited r c)
  else none

/-- The board after `memset(visited, 0, sizeof(visited))`. -/
def board_zero : board_t := fun _ _ => 0

/-- Determines whether a move is possible from a starting position
(`move_is_possible`). -/
def move_is_possible (move_id x y : Nat) (visited : board_t) : Except Fault Bool :=
  if move_id ≥ MOVE_COUNT then .ok false
  else
    match table_get MOVES_X move_id, table_get MOVES_Y move_id with
    | some dx, some dy =>
      let nx : Int := to_int x + dx
      let ny : Int := to_int y + dy
      if nx < 0 ∨ nx ≥ SIZE ∨ ny < 0 ∨ ny ≥ SIZE then .ok false
      else
        match board_get visited ny nx with
        | some v => .ok (v == 0)
        | none => .error Fault.out_of_bounds
    | _, _ => .error Fault.out_of_bounds

/-- The local variables of `tour_greedy`. -/
structure TourState where
  visited : board_t
  x : Nat
  y : Nat
  step : Nat

/-- The body of the `if` inside the `for` loop of `tour_greedy`: commit move
`m` (the position is updated first, then the new square is stamped with the
incremented counter). -/
def commit_move (s : TourState) (m : Nat) : Except Fault TourState :=
  match table_get MOVES_X m, table_get MOVES_Y m with
  | some dx, some dy =>
    let x := to_size_t (to_int s.x + dx)
    let y := to_size_t (to_int s.y + dy)
    let step := (s.step + 1) % 2 ^ 32
    match board_set s.visited y x (to_int step) with
    | some visited => .ok { visited := visited, x := x, y := y, step := step }
    | none => .error Fault.out_of_bounds
  | _, _ => .error Fault.out_of_bounds

/-- The `for (size_t m = 0; m < MOVE_COUNT; ++m)` loop of `tour_greedy`,
entered with loop variable `m`; `n` bounds the number of remaining tests of the
loop condition.  The result is the state after the loop together with the flag
`moved`. -/
def for_moves (s : TourState) : Nat → Nat → Except Fault (TourState × Bool)
  | 0, _ => .error Fault.out_of_fuel
  | n + 1, m =>
    if m < MOVE_COUNT then
      match move_is_possible m s.x s.y s.visited with
      | .error e => .error e
      | .ok true =>
        match commit_move s m with
        | .error e => .error e
        | .ok s' => .ok (s', true)
      | .ok false => for_moves s n (m + 1)
    else .ok (s, false)

/-- One execution of the body of the `while (1)` loop: the `for` loop started
at `m = 0` (it tests its condition at most `MOVE_COUNT + 1` times). -/
def while_body (s : TourState) : Except Fault (TourState × Bool) :=
  for_moves s (MOVE_COUNT + 1) 0

/-- The `while (1)` loop of `tour_greedy`.  Each execution of the body costs
one unit of fuel.  The result is the state at the `break` and the number of
times the body was executed. -/
def while_loop : Nat → TourState → Except Fault (TourState × Nat)
  | 0, _ => .error Fault.out_of_fuel
  | fuel + 1, s =>
    match while_body s with
    | .error e => .error e
    | .ok (s', moved) =>
      if !moved then .ok (s', 1)
      else
        match while_loop fuel s' with
        | .error e => .error e
        | .ok (s'', n) => .ok (s'', n + 1)

/-- The state of `tour_greedy` on entry to its `while (1)` loop. -/
def tour_init (start_x start_y : Nat) : Except Fault TourState :=
  match board_set board_zero start_y start_x (to_int 1) with
  | some visited => .ok { visited := visited, x := start_x, y := start_y, step := 1 }
  | none => .error Fault.out_of_bounds

/-- The whole run of `tour_greedy`: the local variables at the `return`
statement and the number of executions of the body of the `while` loop. -/
def tour_run (fuel start_x start_y : Nat) : Except Fault (TourState × Nat) :=
  match tour_init start_x start_y with
  | .error e => .error e
  | .ok s => while_loop fuel s

/-- Attempts a tour by picking the first accessible square (`tour_greedy`):
the number of visited squares. -/
def tour_greedy (fuel start_x start_y : Nat) : Except Fault Nat :=
  match tour_run fuel start_x start_y with
  | .error e => .error e
  | .ok (s, _) => .ok s.step

/-! ## Specification vocabulary -/

/-- Move `m` is the one the `for` loop of `tour_greedy` takes at position
`(x, y)` on board `b`: it is possible and no move of lower index is. -/
def first_legal (m x y : Nat) (b : board_t) : Prop :=
  m < MOVE_COUNT ∧ move_is_possible m x y b = .ok true ∧
    ∀ j, j < m → move_is_possible j x y b = .ok false

/-- No move is possible at position `(x, y)` on board `b`. -/
def stuck (x y : Nat) (b : board_t) : Prop :=
  ∀ m, m < MOVE_COUNT → move_is_possible m x y b = .ok false

/-- The board `b` with every stamp above `i` erased: the board that holds
exactly the stamps `1 .. i` of `b`. -/
def board_upto (i : Int) (b : board_t) : board_t :=
  fun r c => if b r c ≤ i then b r c else 0

/-- The set of cells of `b` that hold a non-zero value. -/
def stamped_cells (b : board_t) : Finset (Fin SIZE × Fin SIZE) :=
  Finset.univ.filter (fun p => b p.1 p.2 ≠ 0)

/-- The set of cells of `b` that hold the value `v`. -/
def cells_with (b : board_t) (v : Int) : Finset (Fin SIZE × Fin SIZE) :=
  Finset.univ.filter (fun p => b p.1 p.2 = v)

/-- The loop invariant of the `while (1)` loop of `tour_greedy` started at
`(sx, sy)`. -/
structure Inv (sx sy : Nat) (s : TourState) : Prop where
  x_lt : s.x < SIZE
  y_lt : s.y < SIZE
  step_pos : 1 ≤ s.step
  cur : board_get s.visited (s.y : Int) (s.x : Int) = some (s.step : Int)
  start : board_get s.visited (sy : Int) (sx : Int) = some 1
  lo : ∀ r c, 0 ≤ s.visited r c
  hi : ∀ r c, s.visited r c ≤ (s.step : Int)
  inj : ∀ r c r' c', s.visited r c ≠ 0 → s.visited r c = s.visited r' c' →
    r = r' ∧ c = c'
  surj : ∀ i : Nat, 1 ≤ i → i ≤ s.step → ∃ r c, s.visited r c = (i : Int)
  card : (stamped_cells s.visited).card = s.step
  path : ∀ i : Nat, 1 ≤ i → i < s.step → ∀ r c : Fin SIZE, s.visited r c = (i : Int) →
    ∃ m dx dy, table_get MOVES_X m = some dx ∧ table_get MOVES_Y m = some dy ∧
      first_legal m c.val r.val (board_upto i s.visited) ∧
      board_get s.visited ((r.val : Int) + dy) ((c.val : Int) + dx) = some ((i : Int) + 1)

/-! ## The sweep over all starting squares -/

/-- A call of `printf` made by `greedy_tour_from_each_square`. -/
inductive Printf where
  -- the call printf("%3u ", v)
  | count : Nat → Printf
  -- the call printf("\n")
  | newline : Printf
  deriving DecidableEq

/-- The inner loop `for (size_t x = 0; x < SIZE; ++x)` of
`greedy_tour_from_each_square` in row `y`, entered with loop variable `x`;
`n` bounds the number of remaining tests of the loop condition and `out` is the
sequence of `printf` calls made so far. -/
def sweep_row (fuel y : Nat) : Nat → Nat → List Printf → Except Fault (List Printf)
  | 0, _, _ => .error Fault.out_of_fuel
  | n + 1, x, out =>
    if x < SIZE then
      match tour_greedy fuel x y with
      | .error e => .error e
      | .ok v => sweep_row fuel y n (x + 1) (out ++ [Printf.count v])
    else .ok out

/-- The outer loop `for (size_t y = 0; y < SIZE; ++y)` of
`greedy_tour_from_each_square`, entered with loop variable `y`. -/
def sweep_rows (fuel : Nat) : Nat → Nat → List Printf → Except Fault (List Printf)
  | 0, _, _ => .error Fault.out_of_fuel
  | n + 1, y, out =>
    if y < SIZE then
      match sweep_row fuel y (SIZE + 1) 0 out with
      | .error e => .error e
      | .ok out' => sweep_rows fuel n (y + 1) (out' ++ [Printf.newline])
    else .ok out

/-- Attempts tours beginning from each square available on the board
(`greedy_tour_from_each_square`): the sequence of `printf` calls it makes.
`fuel` is the fuel of each call of `tour_greedy`. -/
def greedy_tour_from_each_square (fuel : Nat) : Except Fault (List Printf) :=
  sweep_rows fuel (SIZE + 1) 0 []

/-- The counts of a sequence of `printf` calls, line by line: `cur` holds the
counts of the line being written.  A last line without `newline` is kept when
it holds a count. -/
def output_lines_from : List Printf → List Nat → List (List Nat)
  | [], cur => if cur = [] then [] else [cur]
  | Printf.count v :: rest, cur => output_lines_from rest (cur ++ [v])
  | Printf.newline :: rest, cur => cur :: output_lines_from rest []

/-- The counts written by a sequence of `printf` calls, line by line. -/
def output_lines (out : List Printf) : List (List Nat) :=
  output_lines_from out []

/-- The count returned by `tour_greedy`, and `0` when the run yields none. -/
def tour_count (fuel x y : Nat) : Nat :=
  match tour_greedy fuel x y with
  | .ok k => k
  | .error _ => 0

/-! ## States of a run, and the text written by the sweep -/

/-- The states that the local variables of `tour_greedy`, started at
`(sx, sy)`, take at the head of the `while (1)` loop: the state on entry, and
the state after every execution of the body that committed a move. -/
inductive tour_reach (sx sy : Nat) : TourState → Prop where
  | entry : ∀ s, tour_init sx sy = .ok s → tour_reach sx sy s
  | moved : ∀ s s', tour_reach sx sy s → while_body s = .ok (s', true) →
      tour_reach sx sy s'

/-- The conversion `%<width>u` of `printf`: the decimal digits of `v`, padded
with spaces on the left up to `width` characters. -/
def fmt_u (width v : Nat) : List Char :=
  List.replicate (width - (Nat.toDigits 10 v).length) ' ' ++ Nat.toDigits 10 v

/-- The characters written by one `printf` call of the sweep: `"%3u "` applied
to the count, or `"\n"`. -/
def render_call : Printf → List Char
  | Printf.count v => fmt_u 3 v ++ [' ']
  | Printf.newline => ['\n']

/-- The text written to standard output by a sequence of `printf` calls. -/
def stdout_text (out : List Printf) : List Char :=
  (out.map render_call).flatten

/-- The lines of a text: `cur` holds the characters of the line being read.  A
last line without a line break is kept when it is not empty. -/
def text_lines_from : List Char → List Char → List (List Char)
  | [], cur => if cur = [] then [] else [cur]
  | ch :: rest, cur =>
    if ch = '\n' then cur :: text_lines_from rest []
    else text_lines_from rest (cur ++ [ch])

/-- The lines of a text, without their line breaks. -/
def text_lines (text : List Char) : List (List Char) :=
  text_lines_from text []

/-! ## Casts, tables and board accesses -/

theorem to_int_of_lt {v : Nat} (h : v < 2 ^ 31) : to_int v = (v : Int) := by
  unfold to_int
  have h1 : v % 2 ^ 32 = v := Nat.mod_eq_of_lt (by omega)
  rw [h1, if_pos h]

theorem to_size_t_of_nonneg {i : Int} (h0 : 0 ≤ i) (h1 : i < 2 ^ 64) :
    to_size_t i = i.toNat := by
  unfold to_size_t
  rw [Int.emod_eq_of_lt h0 h1]

theorem table_get_lt {m : Nat} (hm : m < MOVE_COUNT) :
    ∃ dx dy : Int, table_get MOVES_X m = some dx ∧ table_get MOVES_Y m = some dy ∧
      -2 ≤ dx ∧ dx ≤ 2 ∧ -2 ≤ dy ∧ dy ≤ 2 := by
  simp only [MOVE_COUNT] at hm
  interval_cases m <;> simp [table_get, MOVES_X, MOVES_Y]

theorem board_get_eq_some_iff (b : board_t) (row col v : Int) :
    board_get b row col = some v ↔
      ∃ r c : Fin SIZE, (r.val : Int) = row ∧ (c.val : Int) = col ∧ b r c = v := by
  unfold board_get
  constructor
  · intro h
    split at h
    · rename_i hb
      refine ⟨⟨row.toNat, by omega⟩, ⟨col.toNat, by omega⟩, ?_, ?_, ?_⟩
      · simp only; omega
      · simp only; omega
      · exact Option.some.inj h
    · exact absurd h (by simp)
  · rintro ⟨r, c, hr, hc, hv⟩
    have hr2 := r.isLt
    have hc2 := c.isLt
    have hb : 0 ≤ row ∧ row < SIZE ∧ 0 ≤ col ∧ col < SIZE := by
      simp only [SIZE] at *; omega
    rw [dif_pos hb]
    have e1 : (⟨row.toNat, by omega⟩ : Fin SIZE) = r := Fin.ext (by simp only; omega)
    have e2 : (⟨col.toNat, by omega⟩ : Fin SIZE) = c := Fin.ext (by simp only; omega)
    rw [e1, e2, hv]

theorem board_get_fin (b : board_t) (r c : Fin SIZE) :
    board_get b (r.val : Int) (c.val : Int) = some (b r c) :=
  (board_get_eq_some_iff b _ _ _).2 ⟨r, c, rfl, rfl, rfl⟩

theorem move_is_possible_total (m x y : Nat) (b : board_t) :
    ∃ r, move_is_possible m x y b = .ok r := by
  unfold move_is_possible
  by_cases hm : m ≥ MOVE_COUNT
  · exact ⟨false, by rw [if_pos hm]⟩
  · rw [if_neg hm]
    obtain ⟨dx, dy, hdx, hdy, -⟩ := table_get_lt (Nat.lt_of_not_ge hm)
    rw [hdx, hdy]
    simp only
    split
    · exact ⟨false, rfl⟩
    · rename_i hb
      have hb2 : 0 ≤ to_int y + dy ∧ to_int y + dy < SIZE ∧ 0 ≤ to_int x + dx ∧
          to_int x + dx < SIZE := by omega
      simp only [board_get, dif_pos hb2]
      exact ⟨_, rfl⟩

theorem board_get_bounds {b : board_t} {row col v : Int}
    (h : board_get b row col = some v) :
    0 ≤ row ∧ row < SIZE ∧ 0 ≤ col ∧ col < SIZE := by
  obtain ⟨r, c, hr, hc, -⟩ := (board_get_eq_some_iff b row col v).1 h
  have hr2 := r.isLt
  have hc2 := c.isLt
  omega

theorem board_get_total (b : board_t) (row col : Int)
    (h : 0 ≤ row ∧ row < SIZE ∧ 0 ≤ col ∧ col < SIZE) :
    ∃ v, board_get b row col = some v := by
  unfold board_get
  rw [dif_pos h]
  exact ⟨_, rfl⟩

/-- The result of `move_is_possible` in terms of the candidate square, for a
move index inside the table. -/
theorem move_is_possible_eq {m : Nat} (x y : Nat) (b : board_t) {dx dy : Int}
    (hm : m < MOVE_COUNT)
    (hdx : table_get MOVES_X m = some dx) (hdy : table_get MOVES_Y m = some dy) :
    move_is_possible m x y b =
      .ok (decide (board_get b (to_int y + dy) (to_int x + dx) = some 0)) := by
  unfold move_is_possible
  rw [if_neg (Nat.not_le.2 hm), hdx, hdy]
  simp only
  split
  · rename_i hb
    have hne : board_get b (to_int y + dy) (to_int x + dx) ≠ some 0 := by
      intro h
      have := board_get_bounds h
      omega
    simp [hne]
  · rename_i hb
    obtain ⟨v, hv⟩ := board_get_total b (to_int y + dy) (to_int x + dx) (by omega)
    rw [hv]
    by_cases h0 : v = 0
    · subst h0; simp
    · simp [h0]

theorem move_is_possible_true_iff {m : Nat} (x y : Nat) (b : board_t) {dx dy : Int}
    (hm : m < MOVE_COUNT)
    (hdx : table_get MOVES_X m = some dx) (hdy : table_get MOVES_Y m = some dy) :
    move_is_possible m x y b = .ok true ↔
      board_get b (to_int y + dy) (to_int x + dx) = some 0 := by
  rw [move_is_possible_eq x y b hm hdx hdy]
  constructor
  · intro h
    have h2 : decide (board_get b (to_int y + dy) (to_int x + dx) = some 0) = true :=
      Except.ok.inj h
    exact of_decide_eq_true h2
  · intro h
    rw [decide_eq_true h]

theorem move_is_possible_false_iff {m : Nat} (x y : Nat) (b : board_t) {dx dy : Int}
    (hm : m < MOVE_COUNT)
    (hdx : table_get MOVES_X m = some dx) (hdy : table_get MOVES_Y m = some dy) :
    move_is_possible m x y b = .ok false ↔
      board_get b (to_int y + dy) (to_int x + dx) ≠ some 0 := by
  rw [move_is_possible_eq x y b hm hdx hdy]
  constructor
  · intro h
    have h2 : decide (board_get b (to_int y + dy) (to_int x + dx) = some 0) = false :=
      Except.ok.inj h
    exact of_decide_eq_false h2
  · intro h
    rw [decide_eq_false h]

/-! ## The scan of the move table -/

theorem for_moves_spec (s : TourState) :
    ∀ n m, MOVE_COUNT + 1 ≤ n + m → m ≤ MOVE_COUNT →
      (∀ j, j < m → move_is_possible j s.x s.y s.visited = .ok false) →
      (∃ m', first_legal m' s.x s.y s.visited ∧
        for_moves s n m =
          match commit_move s m' with
          | .error e => .error e
          | .ok s' => .ok (s', true)) ∨
      (stuck s.x s.y s.visited ∧ for_moves s n m = .ok (s, false)) := by
  intro n
  induction n with
  | zero =>
    intro m h1 h2 _
    omega
  | succ n ih =>
    intro m h1 h2 hlow
    unfold for_moves
    by_cases hm : m < MOVE_COUNT
    · rw [if_pos hm]
      obtain ⟨r, hr⟩ := move_is_possible_total m s.x s.y s.visited
      cases r with
      | true =>
        left
        refine ⟨m, ⟨hm, hr, hlow⟩, ?_⟩
        rw [hr]
      | false =>
        rw [hr]
        simp only
        apply ih (m + 1) (by omega) (by omega)
        intro j hj
        by_cases hjm : j = m
        · rw [hjm]; exact hr
        · exact hlow j (by omega)
    · rw [if_neg hm]
      right
      refine ⟨?_, rfl⟩
      intro j hj
      exact hlow j (by omega)

theorem while_body_spec (s : TourState) :
    (∃ m, first_legal m s.x s.y s.visited ∧
      while_body s =
        match commit_move s m with
        | .error e => .error e
        | .ok s' => .ok (s', true)) ∨
    (stuck s.x s.y s.visited ∧ while_body s = .ok (s, false)) := by
  unfold while_body
  apply for_moves_spec s (MOVE_COUNT + 1) 0 (by omega) (by omega)
  intro j hj
  omega

theorem card_cells : (Finset.univ : Finset (Fin SIZE × Fin SIZE)).card = 64 := by
  rw [Finset.card_univ, Fintype.card_prod, Fintype.card_fin]
  rfl

theorem Inv.step_le {sx sy : Nat} {s : TourState} (h : Inv sx sy s) : s.step ≤ 64 := by
  rw [← h.card, ← card_cells]
  exact Finset.card_filter_le _ _

/-! ## Preservation of the loop invariant -/

theorem board_set_fin (b : board_t) (r0 c0 : Fin SIZE) (v : Int) :
    board_set b r0.val c0.val v =
      some (fun r c => if r = r0 ∧ c = c0 then v else b r c) := by
  unfold board_set
  rw [if_pos ⟨r0.isLt, c0.isLt⟩]
  congr 1
  funext r c
  simp only [Fin.ext_iff]

theorem commit_move_eq {s : TourState} {m : Nat} {dx dy : Int} {r0 c0 : Fin SIZE}
    (hx : s.x < SIZE) (hy : s.y < SIZE) (hstep : s.step ≤ 64)
    (hdx : table_get MOVES_X m = some dx) (hdy : table_get MOVES_Y m = some dy)
    (hr : (r0.val : Int) = (s.y : Int) + dy) (hc : (c0.val : Int) = (s.x : Int) + dx) :
    commit_move s m =
      .ok { visited := fun r c =>
              if r = r0 ∧ c = c0 then ((s.step + 1 : Nat) : Int) else s.visited r c,
            x := c0.val, y := r0.val, step := s.step + 1 } := by
  simp only [SIZE] at hx hy
  have hxi : to_int s.x = (s.x : Int) := to_int_of_lt (by omega)
  have hyi : to_int s.y = (s.y : Int) := to_int_of_lt (by omega)
  have hst : (s.step + 1) % 2 ^ 32 = s.step + 1 := Nat.mod_eq_of_lt (by omega)
  have hsi : to_int (s.step + 1) = ((s.step + 1 : Nat) : Int) := to_int_of_lt (by omega)
  have hxs : to_size_t ((s.x : Int) + dx) = c0.val := by
    rw [to_size_t_of_nonneg (by omega) (by have := c0.isLt; simp only [SIZE] at this; omega)]
    omega
  have hys : to_size_t ((s.y : Int) + dy) = r0.val := by
    rw [to_size_t_of_nonneg (by omega) (by have := r0.isLt; simp only [SIZE] at this; omega)]
    omega
  unfold commit_move
  rw [hdx, hdy]
  simp only [hxi, hyi, hst, hsi, hxs, hys, board_set_fin]

theorem Inv.stamp {sx sy : Nat} {s : TourState} (h : Inv sx sy s) {m : Nat} {dx dy : Int}
    {r0 c0 : Fin SIZE}
    (hdx : table_get MOVES_X m = some dx) (hdy : table_get MOVES_Y m = some dy)
    (hfl : first_legal m s.x s.y s.visited)
    (hr : (r0.val : Int) = (s.y : Int) + dy) (hc : (c0.val : Int) = (s.x : Int) + dx)
    (hb0 : s.visited r0 c0 = 0) :
    Inv sx sy
      { visited := fun r c =>
          if r = r0 ∧ c = c0 then ((s.step + 1 : Nat) : Int) else s.visited r c,
        x := c0.val, y := r0.val, step := s.step + 1 } := by
  have hpos := h.step_pos
  refine
    { x_lt := c0.isLt
      y_lt := r0.isLt
      step_pos := Nat.le_add_left 1 _
      cur := ?cur
      start := ?start
      lo := ?lo
      hi := ?hi
      inj := ?inj
      surj := ?surj
      card := ?card
      path := ?path }
  case cur =>
    apply (board_get_eq_some_iff _ _ _ _).2
    exact ⟨r0, c0, rfl, rfl, by simp⟩
  case start =>
    obtain ⟨r, c, e1, e2, e3⟩ := (board_get_eq_some_iff _ _ _ _).1 h.start
    apply (board_get_eq_some_iff _ _ _ _).2
    refine ⟨r, c, e1, e2, ?_⟩
    dsimp only
    rw [if_neg]
    · exact e3
    · rintro ⟨rfl, rfl⟩
      rw [hb0] at e3
      omega
  case lo =>
    intro r c
    dsimp only
    split
    · omega
    · exact h.lo r c
  case hi =>
    intro r c
    dsimp only
    split
    · omega
    · have := h.hi r c
      omega
  case inj =>
    intro r c r' c' hne heq
    dsimp only at hne heq
    by_cases h1 : r = r0 ∧ c = c0
    · by_cases h2 : r' = r0 ∧ c' = c0
      · exact ⟨h1.1.trans h2.1.symm, h1.2.trans h2.2.symm⟩
      · rw [if_pos h1, if_neg h2] at heq
        have := h.hi r' c'
        omega
    · by_cases h2 : r' = r0 ∧ c' = c0
      · rw [if_neg h1, if_pos h2] at heq
        have := h.hi r c
        omega
      · rw [if_neg h1] at hne
        rw [if_neg h1, if_neg h2] at heq
        exact h.inj r c r' c' hne heq
  case surj =>
    intro i hi1 hi2
    dsimp only at hi2 ⊢
    by_cases hi : i = s.step + 1
    · exact ⟨r0, c0, by rw [if_pos ⟨rfl, rfl⟩, hi]⟩
    · obtain ⟨r, c, hrc⟩ := h.surj i hi1 (by omega)
      refine ⟨r, c, ?_⟩
      rw [if_neg]
      · exact hrc
      · rintro ⟨rfl, rfl⟩
        rw [hb0] at hrc
        omega
  case card =>
    dsimp only
    have hnot : (r0, c0) ∉ stamped_cells s.visited := by
      simp [stamped_cells, hb0]
    have hins : stamped_cells (fun r c =>
        if r = r0 ∧ c = c0 then ((s.step + 1 : Nat) : Int) else s.visited r c) =
        insert (r0, c0) (stamped_cells s.visited) := by
      ext p
      obtain ⟨r, c⟩ := p
      simp only [stamped_cells, Finset.mem_filter, Finset.mem_univ, true_and,
        Finset.mem_insert, Prod.mk.injEq]
      by_cases h1 : r = r0 ∧ c = c0
      · rw [if_pos h1]
        constructor
        · intro _; exact Or.inl h1
        · intro _; omega
      · rw [if_neg h1]
        constructor
        · intro hh; exact Or.inr hh
        · intro hh
          rcases hh with hh | hh
          · exact absurd hh h1
          · exact hh
    rw [hins, Finset.card_insert_of_not_mem hnot, h.card]
  case path =>
    intro i hi1 hi2 r c hrc
    dsimp only at hrc hi2 ⊢
    have hne : ¬ (r = r0 ∧ c = c0) := by
      intro hh
      rw [if_pos hh] at hrc
      omega
    rw [if_neg hne] at hrc
    have hupto : board_upto (i : Int) (fun r c =>
        if r = r0 ∧ c = c0 then ((s.step + 1 : Nat) : Int) else s.visited r c) =
        board_upto (i : Int) s.visited := by
      funext r' c'
      unfold board_upto
      dsimp only
      by_cases hh : r' = r0 ∧ c' = c0
      · rw [if_pos hh, hh.1, hh.2, hb0, if_neg (by omega)]
        simp
      · rw [if_neg hh]
    rw [hupto]
    by_cases hlt : i < s.step
    · obtain ⟨m', dx', dy', h1, h2, h3, h4⟩ := h.path i hi1 hlt r c hrc
      refine ⟨m', dx', dy', h1, h2, h3, ?_⟩
      obtain ⟨r1, c1, e1, e2, e3⟩ := (board_get_eq_some_iff _ _ _ _).1 h4
      apply (board_get_eq_some_iff _ _ _ _).2
      refine ⟨r1, c1, e1, e2, ?_⟩
      dsimp only
      rw [if_neg]
      · exact e3
      · rintro ⟨rfl, rfl⟩
        rw [hb0] at e3
        omega
    · have hi : i = s.step := by omega
      obtain ⟨r2, c2, e1, e2, e3⟩ := (board_get_eq_some_iff _ _ _ _).1 h.cur
      have hrc2 : r = r2 ∧ c = c2 :=
        h.inj r c r2 c2 (by rw [hrc]; omega) (by rw [hrc, e3, hi])
      have hrv : r.val = s.y := by
        rw [hrc2.1]; omega
      have hcv : c.val = s.x := by
        rw [hrc2.2]; omega
      have hub : board_upto (i : Int) s.visited = s.visited := by
        funext r c
        unfold board_upto
        rw [if_pos (by rw [hi]; exact h.hi r c)]
      refine ⟨m, dx, dy, hdx, hdy, ?_, ?_⟩
      · rw [hub, hrv, hcv]
        exact hfl
      · apply (board_get_eq_some_iff _ _ _ _).2
        refine ⟨r0, c0, by omega, by omega, ?_⟩
        dsimp only
        rw [if_pos ⟨rfl, rfl⟩]
        push_cast
        omega

theorem Inv.commit {sx sy : Nat} {s : TourState} (h : Inv sx sy s) {m : Nat}
    (hfl : first_legal m s.x s.y s.visited) :
    ∃ s', commit_move s m = .ok s' ∧ Inv sx sy s' ∧ s'.step = s.step + 1 := by
  obtain ⟨dx, dy, hdx, hdy, -⟩ := table_get_lt hfl.1
  have hx := h.x_lt
  have hy := h.y_lt
  simp only [SIZE] at hx hy
  have hxi : to_int s.x = (s.x : Int) := to_int_of_lt (by omega)
  have hyi : to_int s.y = (s.y : Int) := to_int_of_lt (by omega)
  have hcell := (move_is_possible_true_iff s.x s.y s.visited hfl.1 hdx hdy).1 hfl.2.1
  rw [hxi, hyi] at hcell
  obtain ⟨r0, c0, hr, hc, hb0⟩ := (board_get_eq_some_iff _ _ _ _).1 hcell
  exact ⟨_, commit_move_eq h.x_lt h.y_lt h.step_le hdx hdy hr hc,
    h.stamp hdx hdy hfl hr hc hb0, rfl⟩

theorem tour_init_spec {sx sy : Nat} (hx : sx < SIZE) (hy : sy < SIZE) :
    ∃ s, tour_init sx sy = .ok s ∧ Inv sx sy s ∧ s.step = 1 := by
  have hset := board_set_fin board_zero ⟨sy, hy⟩ ⟨sx, hx⟩ (to_int 1)
  have h1 : to_int 1 = 1 := to_int_of_lt (by norm_num)
  simp only [h1] at hset
  refine ⟨_, by unfold tour_init; rw [h1, hset], ?_, rfl⟩
  refine
    { x_lt := hx
      y_lt := hy
      step_pos := Nat.le_refl 1
      cur := ?cur
      start := ?start
      lo := ?lo
      hi := ?hi
      inj := ?inj
      surj := ?surj
      card := ?card
      path := ?path }
  case cur =>
    apply (board_get_eq_some_iff _ _ _ _).2
    exact ⟨⟨sy, hy⟩, ⟨sx, hx⟩, rfl, rfl, by simp⟩
  case start =>
    apply (board_get_eq_some_iff _ _ _ _).2
    exact ⟨⟨sy, hy⟩, ⟨sx, hx⟩, rfl, rfl, by simp⟩
  case lo =>
    intro r c
    dsimp only [board_zero]
    split <;> omega
  case hi =>
    intro r c
    dsimp only [board_zero]
    split <;> omega
  case inj =>
    intro r c r' c' hne heq
    dsimp only [board_zero] at hne heq
    by_cases h1 : r = ⟨sy, hy⟩ ∧ c = ⟨sx, hx⟩
    · by_cases h2 : r' = ⟨sy, hy⟩ ∧ c' = ⟨sx, hx⟩
      · exact ⟨h1.1.trans h2.1.symm, h1.2.trans h2.2.symm⟩
      · rw [if_pos h1, if_neg h2] at heq
        omega
    · rw [if_neg h1] at hne
      exact absurd rfl hne
  case surj =>
    intro i hi1 hi2
    dsimp only at hi2 ⊢
    have hi : i = 1 := by omega
    exact ⟨⟨sy, hy⟩, ⟨sx, hx⟩, by rw [if_pos ⟨rfl, rfl⟩, hi]; rfl⟩
  case card =>
    dsimp only
    have hsing : stamped_cells (fun r c =>
        if r = (⟨sy, hy⟩ : Fin SIZE) ∧ c = (⟨sx, hx⟩ : Fin SIZE) then (1 : Int)
        else board_zero r c) = {((⟨sy, hy⟩ : Fin SIZE), (⟨sx, hx⟩ : Fin SIZE))} := by
      ext p
      obtain ⟨r, c⟩ := p
      simp only [stamped_cells, board_zero, Finset.mem_filter, Finset.mem_univ, true_and,
        Finset.mem_singleton, Prod.mk.injEq]
      by_cases h1 : r = ⟨sy, hy⟩ ∧ c = ⟨sx, hx⟩
      · rw [if_pos h1]
        constructor
        · intro _; exact h1
        · intro _; omega
      · rw [if_neg h1]
        constructor
        · intro hh; exact absurd rfl hh
        · intro hh; exact absurd hh h1
    rw [hsing, Finset.card_singleton]
  case path =>
    intro i hi1 hi2
    dsimp only at hi2
    omega

theorem while_loop_spec {sx sy : Nat} :
    ∀ fuel s, Inv sx sy s → 64 - s.step < fuel →
      ∃ s' n, while_loop fuel s = .ok (s', n) ∧ Inv sx sy s' ∧
        stuck s'.x s'.y s'.visited ∧ n + s.step = s'.step + 1 := by
  intro fuel
  induction fuel with
  | zero =>
    intro s _ hf
    omega
  | succ fuel ih =>
    intro s h hf
    unfold while_loop
    rcases while_body_spec s with ⟨m, hfl, hbody⟩ | ⟨hst, hbody⟩
    · obtain ⟨s1, hc, hinv1, hstep1⟩ := h.commit hfl
      rw [hc] at hbody
      obtain ⟨s2, n, hw, hinv2, hst2, hn⟩ :=
        ih s1 hinv1 (by have := hinv1.step_le; omega)
      rw [hbody]
      simp only [Bool.not_true, hw]
      exact ⟨s2, n + 1, rfl, hinv2, hst2, by omega⟩
    · rw [hbody]
      exact ⟨s, 1, rfl, h, hst, by omega⟩

theorem tour_run_spec {fuel sx sy : Nat} (hx : sx < SIZE) (hy : sy < SIZE)
    (hf : 64 ≤ fuel) :
    ∃ s n, tour_run fuel sx sy = .ok (s, n) ∧ Inv sx sy s ∧
      stuck s.x s.y s.visited ∧ n = s.step := by
  obtain ⟨s0, hinit, hinv0, hstep0⟩ := tour_init_spec hx hy
  obtain ⟨s, n, hw, hinv, hst, hn⟩ := while_loop_spec fuel s0 hinv0 (by omega)
  refine ⟨s, n, ?_, hinv, hst, by omega⟩
  unfold tour_run
  rw [hinit]
  exact hw

theorem tour_greedy_of_run {fuel sx sy : Nat} {s : TourState} {n : Nat}
    (h : tour_run fuel sx sy = .ok (s, n)) : tour_greedy fuel sx sy = .ok s.step := by
  unfold tour_greedy
  rw [h]

/-! ## The sweep -/

theorem tour_greedy_eq_count {fuel x y : Nat} (hx : x < SIZE) (hy : y < SIZE)
    (hf : 64 ≤ fuel) : tour_greedy fuel x y = .ok (tour_count fuel x y) := by
  obtain ⟨s, n, hrun, -⟩ := tour_run_spec hx hy hf
  have h := tour_greedy_of_run hrun
  unfold tour_count
  rw [h]

theorem sweep_row_spec {fuel y : Nat} (hy : y < SIZE) (hf : 64 ≤ fuel) :
    ∀ n x out, SIZE + 1 ≤ n + x → x ≤ SIZE →
      sweep_row fuel y n x out =
        .ok (out ++ (List.range' x (SIZE - x)).map
          (fun x => Printf.count (tour_count fuel x y))) := by
  intro n
  induction n with
  | zero =>
    intro x out h1 h2
    omega
  | succ n ih =>
    intro x out h1 h2
    unfold sweep_row
    by_cases hx : x < SIZE
    · rw [if_pos hx, tour_greedy_eq_count hx hy hf]
      simp only
      rw [ih (x + 1) _ (by omega) (by omega)]
      have e : SIZE - x = (SIZE - (x + 1)) + 1 := by omega
      rw [e, List.range'_succ, List.map_cons, List.append_assoc]
      rfl
    · rw [if_neg hx]
      have e : SIZE - x = 0 := by omega
      rw [e]
      simp

theorem sweep_rows_spec {fuel : Nat} (hf : 64 ≤ fuel) :
    ∀ n y out, SIZE + 1 ≤ n + y → y ≤ SIZE →
      sweep_rows fuel n y out =
        .ok (out ++ ((List.range' y (SIZE - y)).map
          (fun y => (List.range' 0 SIZE).map
              (fun x => Printf.count (tour_count fuel x y)) ++ [Printf.newline])).flatten) := by
  intro n
  induction n with
  | zero =>
    intro y out h1 h2
    omega
  | succ n ih =>
    intro y out h1 h2
    unfold sweep_rows
    by_cases hy : y < SIZE
    · rw [if_pos hy, sweep_row_spec hy hf (SIZE + 1) 0 out (by omega) (by omega)]
      simp only
      rw [ih (y + 1) _ (by omega) (by omega)]
      have e : SIZE - y = (SIZE - (y + 1)) + 1 := by omega
      rw [e, List.range'_succ, List.map_cons, List.flatten_cons]
      simp only [List.append_assoc, Nat.sub_zero]
    · rw [if_neg hy]
      have e : SIZE - y = 0 := by omega
      rw [e]
      simp

theorem greedy_tour_from_each_square_eq {fuel : Nat} (hf : 64 ≤ fuel) :
    greedy_tour_from_each_square fuel =
      .ok (((List.range SIZE).map
          (fun y => (List.range SIZE).map
              (fun x => Printf.count (tour_count fuel x y)) ++ [Printf.newline])).flatten) := by
  unfold greedy_tour_from_each_square
  rw [sweep_rows_spec hf (SIZE + 1) 0 [] (by omega) (by omega)]
  simp only [List.nil_append, Nat.sub_zero, List.range_eq_range']

theorem output_lines_grid (f : Nat → Nat → Nat) :
    output_lines (((List.range SIZE).map
          (fun y => (List.range SIZE).map
              (fun x => Printf.count (f x y)) ++ [Printf.newline])).flatten) =
      (List.range SIZE).map (fun y => (List.range SIZE).map (fun x => f x y)) := by
  rfl

/-! ## Counting stamps, and independence of the fuel -/

theorem lt_SIZE_of_le {x : Nat} (h : x ≤ 7) : x < SIZE := Nat.lt_succ_of_le h

theorem table_get_knight {m : Nat} {dx dy : Int}
    (hdx : table_get MOVES_X m = some dx) (hdy : table_get MOVES_Y m = some dy) :
    (dx.natAbs = 1 ∧ dy.natAbs = 2) ∨ (dx.natAbs = 2 ∧ dy.natAbs = 1) := by
  have hm : m < 8 := by
    by_contra hge
    have : table_get MOVES_X m = none := by
      unfold table_get
      exact List.getElem?_eq_none (by simp only [MOVES_X, List.length]; omega)
    rw [this] at hdx
    exact absurd hdx (by simp)
  interval_cases m <;> simp [table_get, MOVES_X, MOVES_Y] at hdx hdy <;>
    subst hdx <;> subst hdy <;> decide

theorem Inv.card_with {sx sy : Nat} {s : TourState} (h : Inv sx sy s) {i : Nat}
    (h1 : 1 ≤ i) (h2 : i ≤ s.step) : (cells_with s.visited (i : Int)).card = 1 := by
  obtain ⟨r, c, hrc⟩ := h.surj i h1 h2
  apply Finset.card_eq_one.2
  refine ⟨(r, c), ?_⟩
  ext p
  obtain ⟨r', c'⟩ := p
  simp only [cells_with, Finset.mem_filter, Finset.mem_univ, true_and,
    Finset.mem_singleton, Prod.mk.injEq]
  constructor
  · intro hp
    exact h.inj r' c' r c (by rw [hp]; omega) (by rw [hp, hrc])
  · rintro ⟨rfl, rfl⟩
    exact hrc

theorem Inv.card_zero {sx sy : Nat} {s : TourState} (h : Inv sx sy s) :
    (cells_with s.visited 0).card = 64 - s.step := by
  have hsum := Finset.filter_card_add_filter_neg_card_eq_card
    (s := (Finset.univ : Finset (Fin SIZE × Fin SIZE)))
    (fun p => s.visited p.1 p.2 ≠ 0)
  have hz : Finset.filter (fun p : Fin SIZE × Fin SIZE => ¬ s.visited p.1 p.2 ≠ 0)
      Finset.univ = cells_with s.visited 0 := by
    unfold cells_with
    apply Finset.filter_congr
    intro p _
    exact not_not
  rw [hz, card_cells] at hsum
  have hc := h.card
  unfold stamped_cells at hc
  omega

theorem while_loop_mono_succ :
    ∀ fuel s r, while_loop fuel s = .ok r → while_loop (fuel + 1) s = .ok r := by
  intro fuel
  induction fuel with
  | zero =>
    intro s r h
    exact absurd h (by simp [while_loop])
  | succ fuel ih =>
    intro s r h
    unfold while_loop at h ⊢
    cases hb : while_body s with
    | error e =>
      rw [hb] at h
      exact absurd h (by simp)
    | ok p =>
      obtain ⟨s1, moved⟩ := p
      rw [hb] at h
      simp only at h ⊢
      cases moved with
      | false => exact h
      | true =>
        simp only [Bool.not_true, Bool.false_eq_true, if_false] at h ⊢
        cases hw : while_loop fuel s1 with
        | error e =>
          rw [hw] at h
          exact absurd h (by simp)
        | ok q =>
          rw [hw] at h
          rw [ih s1 q hw]
          exact h

theorem while_loop_mono {fuel fuel' : Nat} {s : TourState} {r : TourState × Nat}
    (h : while_loop fuel s = .ok r) (hle : fuel ≤ fuel') : while_loop fuel' s = .ok r := by
  induction hle with
  | refl => exact h
  | step _ ih => exact while_loop_mono_succ _ s r ih

theorem tour_run_mono {fuel fuel' sx sy : Nat} {r : TourState × Nat}
    (h : tour_run fuel sx sy = .ok r) (hle : fuel ≤ fuel') :
    tour_run fuel' sx sy = .ok r := by
  unfold tour_run at h ⊢
  cases hi : tour_init sx sy with
  | error e =>
    rw [hi] at h
    exact absurd h (by simp)
  | ok s0 =>
    rw [hi] at h
    exact while_loop_mono h hle

/-! ## The claims of the specification -/

/-- C1: for every start with `0 ≤ start_x ≤ 7` and `0 ≤ start_y ≤ 7`,
`tour_greedy` returns (with fuel for at least 64 executions of the loop body) a
value `k` with `1 ≤ k ≤ 64`. -/
theorem tour_greedy_count_range (fuel start_x start_y : Nat)
    (hx : start_x ≤ 7) (hy : start_y ≤ 7) (hf : 64 ≤ fuel) :
    ∃ k, tour_greedy fuel start_x start_y = .ok k ∧ 1 ≤ k ∧ k ≤ 64 := by
  obtain ⟨s, n, hrun, hinv, -, -⟩ :=
    tour_run_spec (lt_SIZE_of_le hx) (lt_SIZE_of_le hy) hf
  exact ⟨s.step, tour_greedy_of_run hrun, hinv.step_pos, hinv.step_le⟩

/-- Witness of C1 at the start `(3, 4)`. -/
theorem tour_greedy_count_range_witness :
    (3 ≤ 7 ∧ 4 ≤ 7 ∧ 64 ≤ 64) ∧
      ∃ k, tour_greedy 64 3 4 = .ok k ∧ 1 ≤ k ∧ k ≤ 64 :=
  ⟨by decide, tour_greedy_count_range 64 3 4 (by decide) (by decide) (by decide)⟩

/-- C2: for every start in `[0,7] x [0,7]`, when `tour_greedy` returns `k` the
final board holds exactly the stamps `1 .. k`: every cell holds a value between
`0` and `k`, each value `i` with `1 ≤ i ≤ k` is held by exactly one cell, the
other `64 - k` cells hold `0`, and `k` is the number of non-zero cells. -/
theorem tour_greedy_final_stamps (fuel start_x start_y : Nat)
    (hx : start_x ≤ 7) (hy : start_y ≤ 7) (hf : 64 ≤ fuel) :
    ∃ s n k, tour_run fuel start_x start_y = .ok (s, n) ∧
      tour_greedy fuel start_x start_y = .ok k ∧ k = s.step ∧
      (∀ r c, 0 ≤ s.visited r c ∧ s.visited r c ≤ (k : Int)) ∧
      (∀ i : Nat, 1 ≤ i → i ≤ k → (cells_with s.visited (i : Int)).card = 1) ∧
      (cells_with s.visited 0).card = 64 - k ∧
      (stamped_cells s.visited).card = k := by
  obtain ⟨s, n, hrun, hinv, -, -⟩ :=
    tour_run_spec (lt_SIZE_of_le hx) (lt_SIZE_of_le hy) hf
  exact ⟨s, n, s.step, hrun, tour_greedy_of_run hrun, rfl,
    fun r c => ⟨hinv.lo r c, hinv.hi r c⟩,
    fun i h1 h2 => hinv.card_with h1 h2, hinv.card_zero, hinv.card⟩

/-- Witness of C2 at the start `(0, 0)`. -/
theorem tour_greedy_final_stamps_witness :
    (0 ≤ 7 ∧ 0 ≤ 7 ∧ 64 ≤ 64) ∧
      ∃ s n k, tour_run 64 0 0 = .ok (s, n) ∧
        tour_greedy 64 0 0 = .ok k ∧ k = s.step ∧
        (∀ r c, 0 ≤ s.visited r c ∧ s.visited r c ≤ (k : Int)) ∧
        (∀ i : Nat, 1 ≤ i → i ≤ k → (cells_with s.visited (i : Int)).card = 1) ∧
        (cells_with s.visited 0).card = 64 - k ∧
        (stamped_cells s.visited).card = k :=
  ⟨by decide, tour_greedy_final_stamps 64 0 0 (by decide) (by decide) (by decide)⟩

/-- C3: for a move index in `[0,7]` and a position in `[0,7] x [0,7]`,
`move_is_possible` returns true exactly when the candidate
`(x + MOVES_X[move_id], y + MOVES_Y[move_id])` is on the board and the cell at
row `ny`, column `nx` holds `0`; it returns false when the candidate is off the
board on either axis and false when that cell is non-zero. -/
theorem move_is_possible_spec (move_id x y : Nat) (board : board_t)
    (hm : move_id ≤ 7) (hx : x ≤ 7) (hy : y ≤ 7) :
    ∃ (dx dy : Int) (res : Bool),
      table_get MOVES_X move_id = some dx ∧ table_get MOVES_Y move_id = some dy ∧
      move_is_possible move_id x y board = .ok res ∧
      (res = true ↔
        (0 ≤ (x : Int) + dx ∧ (x : Int) + dx ≤ 7 ∧ 0 ≤ (y : Int) + dy ∧ (y : Int) + dy ≤ 7 ∧
          board_get board ((y : Int) + dy) ((x : Int) + dx) = some 0)) ∧
      (((x : Int) + dx < 0 ∨ 7 < (x : Int) + dx ∨ (y : Int) + dy < 0 ∨ 7 < (y : Int) + dy) →
        res = false) ∧
      (∀ v, board_get board ((y : Int) + dy) ((x : Int) + dx) = some v → v ≠ 0 →
        res = false) := by
  have hm8 : move_id < MOVE_COUNT := Nat.lt_succ_of_le hm
  obtain ⟨dx, dy, hdx, hdy, -⟩ := table_get_lt hm8
  have hxi : to_int x = (x : Int) := to_int_of_lt (by omega)
  have hyi : to_int y = (y : Int) := to_int_of_lt (by omega)
  have heq := move_is_possible_eq x y board hm8 hdx hdy
  rw [hxi, hyi] at heq
  refine ⟨dx, dy, _, hdx, hdy, heq, ?_, ?_, ?_⟩
  · rw [decide_eq_true_iff]
    constructor
    · intro h
      have hb := board_get_bounds h
      simp only [SIZE] at hb
      exact ⟨by omega, by omega, by omega, by omega, h⟩
    · intro h
      exact h.2.2.2.2
  · intro hoff
    rw [decide_eq_false_iff_not]
    intro h
    have hb := board_get_bounds h
    simp only [SIZE] at hb
    omega
  · intro v hv hne
    rw [decide_eq_false_iff_not, hv]
    intro h
    exact hne (Option.some.inj h)

/-- Witness of C3: move 4 = (-2, -1) from `(1, 0)` on the empty board. -/
theorem move_is_possible_spec_witness :
    (4 ≤ 7 ∧ 1 ≤ 7 ∧ 0 ≤ 7) ∧
    ∃ (dx dy : Int) (res : Bool),
      table_get MOVES_X 4 = some dx ∧ table_get MOVES_Y 4 = some dy ∧
      move_is_possible 4 1 0 board_zero = .ok res ∧
      (res = true ↔
        (0 ≤ ((1 : Nat) : Int) + dx ∧ ((1 : Nat) : Int) + dx ≤ 7 ∧
          0 ≤ ((0 : Nat) : Int) + dy ∧ ((0 : Nat) : Int) + dy ≤ 7 ∧
          board_get board_zero (((0 : Nat) : Int) + dy) (((1 : Nat) : Int) + dx) = some 0)) ∧
      ((((1 : Nat) : Int) + dx < 0 ∨ 7 < ((1 : Nat) : Int) + dx ∨
          ((0 : Nat) : Int) + dy < 0 ∨ 7 < ((0 : Nat) : Int) + dy) →
        res = false) ∧
      (∀ v, board_get board_zero (((0 : Nat) : Int) + dy) (((1 : Nat) : Int) + dx) = some v →
        v ≠ 0 → res = false) :=
  ⟨by decide, move_is_possible_spec 4 1 0 board_zero (by decide) (by decide) (by decide)⟩

/-- C4 (greedy tie-break): in the run of `tour_greedy` from a start in
`[0,7] x [0,7]` that returns `k`, for each `i` with `1 ≤ i < k` a cell stamped
`i` exists, and the cell stamped `i + 1` is the cell stamped `i` displaced by
`(MOVES_X[m], MOVES_Y[m])`, where `m` is the smallest index in `[0,7]` for which
`move_is_possible` holds from the cell stamped `i` on the board that holds
exactly the stamps `1 .. i`: every move of lower index is not possible there. -/
theorem tour_greedy_lowest_index (fuel start_x start_y : Nat)
    (hx : start_x ≤ 7) (hy : start_y ≤ 7) (hf : 64 ≤ fuel) :
    ∃ s n k, tour_run fuel start_x start_y = .ok (s, n) ∧
      tour_greedy fuel start_x start_y = .ok k ∧
      ∀ i : Nat, 1 ≤ i → i < k →
        (∃ x y : Nat, board_get s.visited (y : Int) (x : Int) = some (i : Int)) ∧
        ∀ x y : Nat, board_get s.visited (y : Int) (x : Int) = some (i : Int) →
          ∃ m dx dy, m < MOVE_COUNT ∧
            table_get MOVES_X m = some dx ∧ table_get MOVES_Y m = some dy ∧
            move_is_possible m x y (board_upto (i : Int) s.visited) = .ok true ∧
            (∀ j, j < m →
              move_is_possible j x y (board_upto (i : Int) s.visited) = .ok false) ∧
            board_get s.visited ((y : Int) + dy) ((x : Int) + dx) = some ((i : Int) + 1) := by
  obtain ⟨s, n, hrun, hinv, -, -⟩ :=
    tour_run_spec (lt_SIZE_of_le hx) (lt_SIZE_of_le hy) hf
  refine ⟨s, n, s.step, hrun, tour_greedy_of_run hrun, ?_⟩
  intro i hi1 hi2
  constructor
  · obtain ⟨r, c, hrc⟩ := hinv.surj i hi1 (Nat.le_of_lt hi2)
    exact ⟨c.val, r.val, (board_get_eq_some_iff _ _ _ _).2 ⟨r, c, rfl, rfl, hrc⟩⟩
  · intro x y hxy
    obtain ⟨r, c, e1, e2, e3⟩ := (board_get_eq_some_iff _ _ _ _).1 hxy
    have hr : r.val = y := by omega
    have hc : c.val = x := by omega
    obtain ⟨m, dx, dy, hdx, hdy, hfl, hnext⟩ := hinv.path i hi1 hi2 r c e3
    rw [hr, hc] at hfl hnext
    exact ⟨m, dx, dy, hfl.1, hdx, hdy, hfl.2.1, hfl.2.2, hnext⟩

/-- Witness of C4 at the start `(0, 0)`. -/
theorem tour_greedy_lowest_index_witness :
    (0 ≤ 7 ∧ 0 ≤ 7 ∧ 64 ≤ 64) ∧
    ∃ s n k, tour_run 64 0 0 = .ok (s, n) ∧
      tour_greedy 64 0 0 = .ok k ∧
      ∀ i : Nat, 1 ≤ i → i < k →
        (∃ x y : Nat, board_get s.visited (y : Int) (x : Int) = some (i : Int)) ∧
        ∀ x y : Nat, board_get s.visited (y : Int) (x : Int) = some (i : Int) →
          ∃ m dx dy, m < MOVE_COUNT ∧
            table_get MOVES_X m = some dx ∧ table_get MOVES_Y m = some dy ∧
            move_is_possible m x y (board_upto (i : Int) s.visited) = .ok true ∧
            (∀ j, j < m →
              move_is_possible j x y (board_upto (i : Int) s.visited) = .ok false) ∧
            board_get s.visited ((y : Int) + dy) ((x : Int) + dx) = some ((i : Int) + 1) :=
  ⟨by decide, tour_greedy_lowest_index 64 0 0 (by decide) (by decide) (by decide)⟩

/-- C5 (stuck on return): for every start in `[0,7] x [0,7]`, when
`tour_greedy` returns `k` the final position is the cell stamped `k`, and on the
final board `move_is_possible` is false from that cell for all 8 move indices:
every knight-move neighbour is off the board or holds a non-zero stamp. -/
theorem tour_greedy_stuck_on_return (fuel start_x start_y : Nat)
    (hx : start_x ≤ 7) (hy : start_y ≤ 7) (hf : 64 ≤ fuel) :
    ∃ s n k, tour_run fuel start_x start_y = .ok (s, n) ∧
      tour_greedy fuel start_x start_y = .ok k ∧
      board_get s.visited (s.y : Int) (s.x : Int) = some (k : Int) ∧
      (∀ m, m < MOVE_COUNT → move_is_possible m s.x s.y s.visited = .ok false) ∧
      (∀ m dx dy, table_get MOVES_X m = some dx → table_get MOVES_Y m = some dy →
        board_get s.visited ((s.y : Int) + dy) ((s.x : Int) + dx) = none ∨
        ∃ v, board_get s.visited ((s.y : Int) + dy) ((s.x : Int) + dx) = some v ∧ v ≠ 0) := by
  obtain ⟨s, n, hrun, hinv, hst, -⟩ :=
    tour_run_spec (lt_SIZE_of_le hx) (lt_SIZE_of_le hy) hf
  refine ⟨s, n, s.step, hrun, tour_greedy_of_run hrun, hinv.cur, hst, ?_⟩
  intro m dx dy hdx hdy
  have hm : m < MOVE_COUNT := by
    by_contra hge
    have hnone : table_get MOVES_X m = none := by
      unfold table_get
      exact List.getElem?_eq_none (by simp only [MOVES_X, MOVE_COUNT, List.length] at hge ⊢; omega)
    rw [hnone] at hdx
    exact absurd hdx (by simp)
  have hsx := hinv.x_lt
  have hsy := hinv.y_lt
  simp only [SIZE] at hsx hsy
  have hxi : to_int s.x = (s.x : Int) := to_int_of_lt (by omega)
  have hyi : to_int s.y = (s.y : Int) := to_int_of_lt (by omega)
  have hfalse := (move_is_possible_false_iff s.x s.y s.visited hm hdx hdy).1 (hst m hm)
  rw [hxi, hyi] at hfalse
  cases hget : board_get s.visited ((s.y : Int) + dy) ((s.x : Int) + dx) with
  | none => exact Or.inl rfl
  | some v =>
    right
    refine ⟨v, rfl, ?_⟩
    intro hv
    rw [hget, hv] at hfalse
    exact hfalse rfl

/-- Witness of C5 at the start `(7, 7)`. -/
theorem tour_greedy_stuck_on_return_witness :
    (7 ≤ 7 ∧ 7 ≤ 7 ∧ 64 ≤ 64) ∧
    ∃ s n k, tour_run 64 7 7 = .ok (s, n) ∧
      tour_greedy 64 7 7 = .ok k ∧
      board_get s.visited (s.y : Int) (s.x : Int) = some (k : Int) ∧
      (∀ m, m < MOVE_COUNT → move_is_possible m s.x s.y s.visited = .ok false) ∧
      (∀ m dx dy, table_get MOVES_X m = some dx → table_get MOVES_Y m = some dy →
        board_get s.visited ((s.y : Int) + dy) ((s.x : Int) + dx) = none ∨
        ∃ v, board_get s.visited ((s.y : Int) + dy) ((s.x : Int) + dx) = some v ∧ v ≠ 0) :=
  ⟨by decide, tour_greedy_stuck_on_return 64 7 7 (by decide) (by decide) (by decide)⟩

/-- C6: for every start in `[0,7] x [0,7]` the `while (1)` loop of
`tour_greedy` terminates, and its body is executed `k` times, which is at most
64: once for each of the `k - 1 ≤ 63` committed moves and once for the final
iteration that finds no move. -/
theorem tour_greedy_loop_bound (fuel start_x start_y : Nat)
    (hx : start_x ≤ 7) (hy : start_y ≤ 7) (hf : 64 ≤ fuel) :
    ∃ s n k, tour_run fuel start_x start_y = .ok (s, n) ∧
      tour_greedy fuel start_x start_y = .ok k ∧
      n ≤ 64 ∧ n = (k - 1) + 1 ∧ k - 1 ≤ 63 := by
  obtain ⟨s, n, hrun, hinv, -, hn⟩ :=
    tour_run_spec (lt_SIZE_of_le hx) (lt_SIZE_of_le hy) hf
  have h1 := hinv.step_pos
  have h2 := hinv.step_le
  exact ⟨s, n, s.step, hrun, tour_greedy_of_run hrun, by omega, by omega, by omega⟩

/-- Witness of C6 at the centre start `(3, 3)`. -/
theorem tour_greedy_loop_bound_witness :
    (3 ≤ 7 ∧ 3 ≤ 7 ∧ 64 ≤ 64) ∧
    ∃ s n k, tour_run 64 3 3 = .ok (s, n) ∧
      tour_greedy 64 3 3 = .ok k ∧
      n ≤ 64 ∧ n = (k - 1) + 1 ∧ k - 1 ≤ 63 :=
  ⟨by decide, tour_greedy_loop_bound 64 3 3 (by decide) (by decide) (by decide)⟩

/-- C7: the move table is the ordered list `(2,1), (1,2), (-1,2), (-2,1),
(-2,-1), (-1,-2), (1,-2), (2,-1)`; both tables have `MOVE_COUNT` entries, the 8
offsets are pairwise distinct, and a pair `(dx, dy)` is in the table exactly
when `(|dx|, |dy|)` is `(1,2)` or `(2,1)`. -/
theorem move_table_spec :
    MOVES_X.zip MOVES_Y =
      [(2, 1), (1, 2), (-1, 2), (-2, 1), (-2, -1), (-1, -2), (1, -2), (2, -1)] ∧
    MOVES_X.length = MOVE_COUNT ∧ MOVES_Y.length = MOVE_COUNT ∧
    (MOVES_X.zip MOVES_Y).Nodup ∧
    ∀ dx dy : Int, (dx, dy) ∈ MOVES_X.zip MOVES_Y ↔
      ((dx.natAbs = 1 ∧ dy.natAbs = 2) ∨ (dx.natAbs = 2 ∧ dy.natAbs = 1)) := by
  refine ⟨rfl, rfl, rfl, by decide, ?_⟩
  intro dx dy
  have hz : MOVES_X.zip MOVES_Y =
      [(2, 1), (1, 2), (-1, 2), (-2, 1), (-2, -1), (-1, -2), (1, -2), (2, -1)] := rfl
  rw [hz]
  simp only [List.mem_cons, Prod.mk.injEq, List.mem_singleton, List.not_mem_nil, or_false]
  omega

/-- C8: the sweep `greedy_tour_from_each_square` evaluates all 64 starts with
`y` as the outer (row) index and `x` as the inner (column) index: the grid it
emits, line by line, is the list of `tour_greedy(x, y)` for `y = 0..7`,
`x = 0..7`, so the `c`-th value on the `r`-th output line is
`tour_greedy(c, r)`. -/
theorem sweep_row_major (fuel : Nat) (hf : 64 ≤ fuel) :
    ∃ out, greedy_tour_from_each_square fuel = .ok out ∧
      output_lines out =
        (List.range 8).map (fun y => (List.range 8).map (fun x => tour_count fuel x y)) ∧
      ∀ r c : Nat, r ≤ 7 → c ≤ 7 →
        ∃ row k, (output_lines out)[r]? = some row ∧ row[c]? = some k ∧
          tour_greedy fuel c r = .ok k := by
  have hout := greedy_tour_from_each_square_eq hf
  have hlines := output_lines_grid (tour_count fuel)
  refine ⟨_, hout, hlines, ?_⟩
  intro r c hr hc
  rw [hlines]
  refine ⟨(List.range SIZE).map (fun x => tour_count fuel x r), tour_count fuel c r, ?_, ?_,
    tour_greedy_eq_count (lt_SIZE_of_le hc) (lt_SIZE_of_le hr) hf⟩
  · rw [List.getElem?_map, List.getElem?_range (lt_SIZE_of_le hr)]
    rfl
  · rw [List.getElem?_map, List.getElem?_range (lt_SIZE_of_le hc)]
    rfl

/-- Witness of C8 with fuel 64. -/
theorem sweep_row_major_witness :
    64 ≤ 64 ∧
    ∃ out, greedy_tour_from_each_square 64 = .ok out ∧
      output_lines out =
        (List.range 8).map (fun y => (List.range 8).map (fun x => tour_count 64 x y)) ∧
      ∀ r c : Nat, r ≤ 7 → c ≤ 7 →
        ∃ row k, (output_lines out)[r]? = some row ∧ row[c]? = some k ∧
          tour_greedy 64 c r = .ok k :=
  ⟨by decide, sweep_row_major 64 (by decide)⟩

/-- C9: starting `tour_greedy` at `(0, 0)`, move index 0 is `(+2, +1)` and is
possible on the board that holds only the start stamp, so the first execution of
the loop body commits it and reaches `x = 2`, `y = 1` with step 2; in the final
board the cell at `x = 2`, `y = 1` (`visited[1][2]`) is stamped 2 and the cell at
`(0, 0)` is stamped 1. -/
theorem tour_greedy_corner_first_move (fuel : Nat) (hf : 64 ≤ fuel) :
    table_get MOVES_X 0 = some 2 ∧ table_get MOVES_Y 0 = some 1 ∧
    (∃ s0 s1, tour_init 0 0 = .ok s0 ∧
      move_is_possible 0 s0.x s0.y s0.visited = .ok true ∧
      commit_move s0 0 = .ok s1 ∧ while_body s0 = .ok (s1, true) ∧
      s1.x = 2 ∧ s1.y = 1 ∧ s1.step = 2) ∧
    ∃ s n, tour_run fuel 0 0 = .ok (s, n) ∧
      board_get s.visited 0 0 = some 1 ∧ board_get s.visited 1 2 = some 2 := by
  refine ⟨rfl, rfl, ⟨_, _, rfl, rfl, rfl, rfl, rfl, rfl, rfl⟩, ?_⟩
  obtain ⟨s, n, hrun, -⟩ :=
    tour_run_spec (lt_SIZE_of_le (Nat.zero_le 7)) (lt_SIZE_of_le (Nat.zero_le 7))
      (Nat.le_refl 64)
  have key : (tour_run 64 0 0).toOption.map
      (fun p => (board_get p.1.visited 0 0, board_get p.1.visited 1 2)) =
      some (some 1, some 2) := by rfl
  rw [hrun] at key
  simp only [Except.toOption, Option.map_some', Option.some.injEq, Prod.mk.injEq] at key
  exact ⟨s, n, tour_run_mono hrun hf, key.1, key.2⟩

/-- Witness of C9 with fuel 64. -/
theorem tour_greedy_corner_first_move_witness :
    64 ≤ 64 ∧
    (table_get MOVES_X 0 = some 2 ∧ table_get MOVES_Y 0 = some 1 ∧
    (∃ s0 s1, tour_init 0 0 = .ok s0 ∧
      move_is_possible 0 s0.x s0.y s0.visited = .ok true ∧
      commit_move s0 0 = .ok s1 ∧ while_body s0 = .ok (s1, true) ∧
      s1.x = 2 ∧ s1.y = 1 ∧ s1.step = 2) ∧
    ∃ s n, tour_run 64 0 0 = .ok (s, n) ∧
      board_get s.visited 0 0 = some 1 ∧ board_get s.visited 1 2 = some 2) :=
  ⟨by decide, tour_greedy_corner_first_move 64 (by decide)⟩

/-- C10: the stamps trace a knight path from the start: in the final board of
`tour_greedy` from `(sx, sy)` in `[0,7] x [0,7]` the cell at row `sy`, column
`sx` holds 1, and for every `i` with `1 ≤ i < k` a cell stamped `i` exists and
the cell stamped `i + 1` differs from the cell stamped `i` by `(dx, dy)` with
`(|dx|, |dy|)` equal to `(1,2)` or `(2,1)`. -/
theorem tour_greedy_knight_path (fuel sx sy : Nat)
    (hx : sx ≤ 7) (hy : sy ≤ 7) (hf : 64 ≤ fuel) :
    ∃ s n k, tour_run fuel sx sy = .ok (s, n) ∧ tour_greedy fuel sx sy = .ok k ∧
      board_get s.visited (sy : Int) (sx : Int) = some 1 ∧
      ∀ i : Nat, 1 ≤ i → i < k →
        (∃ x y : Nat, board_get s.visited (y : Int) (x : Int) = some (i : Int)) ∧
        ∀ x y : Nat, board_get s.visited (y : Int) (x : Int) = some (i : Int) →
          ∃ dx dy : Int,
            ((dx.natAbs = 1 ∧ dy.natAbs = 2) ∨ (dx.natAbs = 2 ∧ dy.natAbs = 1)) ∧
            board_get s.visited ((y : Int) + dy) ((x : Int) + dx) = some ((i : Int) + 1) := by
  obtain ⟨s, n, hrun, hinv, -, -⟩ :=
    tour_run_spec (lt_SIZE_of_le hx) (lt_SIZE_of_le hy) hf
  refine ⟨s, n, s.step, hrun, tour_greedy_of_run hrun, hinv.start, ?_⟩
  intro i hi1 hi2
  constructor
  · obtain ⟨r, c, hrc⟩ := hinv.surj i hi1 (Nat.le_of_lt hi2)
    exact ⟨c.val, r.val, (board_get_eq_some_iff _ _ _ _).2 ⟨r, c, rfl, rfl, hrc⟩⟩
  · intro x y hxy
    obtain ⟨r, c, e1, e2, e3⟩ := (board_get_eq_some_iff _ _ _ _).1 hxy
    have hr : r.val = y := by omega
    have hc : c.val = x := by omega
    obtain ⟨m, dx, dy, hdx, hdy, -, hnext⟩ := hinv.path i hi1 hi2 r c e3
    rw [hr, hc] at hnext
    exact ⟨dx, dy, table_get_knight hdx hdy, hnext⟩

/-- Witness of C10 at the centre start `(4, 4)`. -/
theorem tour_greedy_knight_path_witness :
    (4 ≤ 7 ∧ 4 ≤ 7 ∧ 64 ≤ 64) ∧
    ∃ s n k, tour_run 64 4 4 = .ok (s, n) ∧ tour_greedy 64 4 4 = .ok k ∧
      board_get s.visited ((4 : Nat) : Int) ((4 : Nat) : Int) = some 1 ∧
      ∀ i : Nat, 1 ≤ i → i < k →
        (∃ x y : Nat, board_get s.visited (y : Int) (x : Int) = some (i : Int)) ∧
        ∀ x y : Nat, board_get s.visited (y : Int) (x : Int) = some (i : Int) →
          ∃ dx dy : Int,
            ((dx.natAbs = 1 ∧ dy.natAbs = 2) ∨ (dx.natAbs = 2 ∧ dy.natAbs = 1)) ∧
            board_get s.visited ((y : Int) + dy) ((x : Int) + dx) = some ((i : Int) + 1) :=
  ⟨by decide, tour_greedy_knight_path 64 4 4 (by decide) (by decide) (by decide)⟩

/-! ## Bounds safety -/

theorem tour_reach_inv {sx sy : Nat} (hx : sx < SIZE) (hy : sy < SIZE) :
    ∀ s, tour_reach sx sy s → Inv sx sy s := by
  intro s hs
  induction hs with
  | entry s hinit =>
    obtain ⟨s0, h0, hinv, -⟩ := tour_init_spec hx hy
    rw [h0] at hinit
    rw [← Except.ok.inj hinit]
    exact hinv
  | moved s s' _ hbody ih =>
    rcases while_body_spec s with ⟨m, hfl, hb⟩ | ⟨-, hb⟩
    · obtain ⟨s1, hc, hinv1, -⟩ := ih.commit hfl
      rw [hc, hbody] at hb
      have e : s' = s1 := congrArg Prod.fst (Except.ok.inj hb)
      rw [e]
      exact hinv1
    · rw [hbody] at hb
      have e : true = false := congrArg Prod.snd (Except.ok.inj hb)
      exact absurd e (by decide)

theorem while_loop_in_bounds {sx sy : Nat} :
    ∀ fuel s, Inv sx sy s → while_loop fuel s ≠ .error Fault.out_of_bounds := by
  intro fuel
  induction fuel with
  | zero =>
    intro s _ h
    simp [while_loop] at h
  | succ fuel ih =>
    intro s hinv h
    unfold while_loop at h
    rcases while_body_spec s with ⟨m, hfl, hb⟩ | ⟨-, hb⟩
    · obtain ⟨s1, hc, hinv1, -⟩ := hinv.commit hfl
      rw [hc] at hb
      rw [hb] at h
      simp only [Bool.not_true, Bool.false_eq_true, if_false] at h
      cases hw : while_loop fuel s1 with
      | error e =>
        rw [hw] at h
        have he : e = Fault.out_of_bounds := Except.error.inj h
        rw [he] at hw
        exact ih s1 hinv1 hw
      | ok q =>
        rw [hw] at h
        simp at h
    · rw [hb] at h
      simp at h

theorem Inv.move_exists {sx sy : Nat} {s : TourState} (h : Inv sx sy s)
    (h1 : s.step = 1) :
    ∃ m, m < MOVE_COUNT ∧ move_is_possible m s.x s.y s.visited = .ok true := by
  have hx := h.x_lt
  have hy := h.y_lt
  simp only [SIZE] at hx hy
  have hxi : to_int s.x = (s.x : Int) := to_int_of_lt (by omega)
  have hyi : to_int s.y = (s.y : Int) := to_int_of_lt (by omega)
  obtain ⟨r0, c0, e1, e2, e3⟩ := (board_get_eq_some_iff _ _ _ _).1 h.cur
  -- a candidate on the board
  have hcand : ∃ m dx dy, m < MOVE_COUNT ∧ table_get MOVES_X m = some dx ∧
      table_get MOVES_Y m = some dy ∧ (dx ≠ 0) ∧
      0 ≤ (s.x : Int) + dx ∧ (s.x : Int) + dx < 8 ∧
      0 ≤ (s.y : Int) + dy ∧ (s.y : Int) + dy < 8 := by
    by_cases hxs : s.x ≤ 5
    · by_cases hys : s.y ≤ 6
      · exact ⟨0, 2, 1, by decide, by decide, by decide, by decide, by omega, by omega, by omega, by omega⟩
      · exact ⟨7, 2, -1, by decide, by decide, by decide, by decide, by omega, by omega, by omega, by omega⟩
    · by_cases hys : s.y ≤ 6
      · exact ⟨3, -2, 1, by decide, by decide, by decide, by decide, by omega, by omega, by omega, by omega⟩
      · exact ⟨4, -2, -1, by decide, by decide, by decide, by decide, by omega, by omega, by omega, by omega⟩
  obtain ⟨m, dx, dy, hm, hdx, hdy, hne, b1, b2, b3, b4⟩ := hcand
  refine ⟨m, hm, ?_⟩
  rw [move_is_possible_true_iff s.x s.y s.visited hm hdx hdy, hxi, hyi]
  obtain ⟨v, hv⟩ := board_get_total s.visited ((s.y : Int) + dy) ((s.x : Int) + dx)
    (by simp only [SIZE]; omega)
  obtain ⟨r, c, f1, f2, f3⟩ := (board_get_eq_some_iff _ _ _ _).1 hv
  have hv0 : v = 0 := by
    by_contra hvne
    have hlo := h.lo r c
    have hhi := h.hi r c
    have hv1 : s.visited r c = s.visited r0 c0 := by
      rw [e3]; omega
    have hsame := h.inj r c r0 c0 (by rw [f3]; exact hvne) hv1
    have : (c.val : Int) = (c0.val : Int) := by rw [hsame.2]
    omega
  rw [hv, hv0]

/-- C11 (bounds safety): `move_is_possible` never reads outside the move table
or the board, whatever its arguments.  For every start in `[0,7] x [0,7]` the
write of the start stamp is in range, and in every state the run reaches the
position is inside `[0,7] x [0,7]`, the body of the loop ends without an access
out of range, and for every move that `move_is_possible` accepts the signed
sums `(int)x + MOVES_X[m]` and `(int)y + MOVES_Y[m]` lie in `[0,7]` (so they
are not negative when cast back to `size_t`) and the stamp is written in range.
With any fuel, the run never ends in `out_of_bounds`. -/
theorem tour_greedy_bounds_safe (start_x start_y : Nat)
    (hx : start_x ≤ 7) (hy : start_y ≤ 7) :
    (∀ m x y b, ∃ res, move_is_possible m x y b = .ok res) ∧
    (∃ s0, tour_init start_x start_y = .ok s0) ∧
    (∀ s, tour_reach start_x start_y s →
      s.x ≤ 7 ∧ s.y ≤ 7 ∧
      (∃ res, while_body s = .ok res) ∧
      ∀ m dx dy, table_get MOVES_X m = some dx → table_get MOVES_Y m = some dy →
        move_is_possible m s.x s.y s.visited = .ok true →
        0 ≤ to_int s.x + dx ∧ to_int s.x + dx ≤ 7 ∧
        0 ≤ to_int s.y + dy ∧ to_int s.y + dy ≤ 7 ∧
        ∃ s', commit_move s m = .ok s' ∧ s'.x ≤ 7 ∧ s'.y ≤ 7 ∧
          (s'.x : Int) = to_int s.x + dx ∧ (s'.y : Int) = to_int s.y + dy) ∧
    (∀ fuel, tour_run fuel start_x start_y ≠ .error Fault.out_of_bounds) := by
  have hx8 := lt_SIZE_of_le hx
  have hy8 := lt_SIZE_of_le hy
  obtain ⟨s0, hinit, hinv0, -⟩ := tour_init_spec hx8 hy8
  refine ⟨move_is_possible_total, ⟨s0, hinit⟩, ?_, ?_⟩
  · intro s hs
    have hinv := tour_reach_inv hx8 hy8 s hs
    have hsx := hinv.x_lt
    have hsy := hinv.y_lt
    simp only [SIZE] at hsx hsy
    refine ⟨by omega, by omega, ?_, ?_⟩
    · rcases while_body_spec s with ⟨m, hfl, hb⟩ | ⟨-, hb⟩
      · obtain ⟨s1, hc, -, -⟩ := hinv.commit hfl
        rw [hc] at hb
        exact ⟨_, hb⟩
      · exact ⟨_, hb⟩
    · intro m dx dy hdx hdy htrue
      have hm : m < MOVE_COUNT := by
        by_contra hge
        have hnone : table_get MOVES_X m = none := by
          unfold table_get
          exact List.getElem?_eq_none
            (by simp only [MOVES_X, MOVE_COUNT, List.length] at hge ⊢; omega)
        rw [hnone] at hdx
        exact absurd hdx (by simp)
      have hcell := (move_is_possible_true_iff s.x s.y s.visited hm hdx hdy).1 htrue
      have hb := board_get_bounds hcell
      simp only [SIZE] at hb
      have hxi : to_int s.x = (s.x : Int) := to_int_of_lt (by omega)
      have hyi : to_int s.y = (s.y : Int) := to_int_of_lt (by omega)
      rw [hxi, hyi] at hcell hb ⊢
      obtain ⟨r0, c0, hr, hc, -⟩ := (board_get_eq_some_iff _ _ _ _).1 hcell
      have hr8 := r0.isLt
      have hc8 := c0.isLt
      simp only [SIZE] at hr8 hc8
      refine ⟨by omega, by omega, by omega, by omega, _,
        commit_move_eq hinv.x_lt hinv.y_lt hinv.step_le hdx hdy hr hc, ?_, ?_, hc, hr⟩
      · show c0.val ≤ 7
        omega
      · show r0.val ≤ 7
        omega
  · intro fuel h
    unfold tour_run at h
    rw [hinit] at h
    exact while_loop_in_bounds fuel s0 hinv0 h

/-- Witness of C11 at the start `(7, 0)`. -/
theorem tour_greedy_bounds_safe_witness :
    (7 ≤ 7 ∧ 0 ≤ 7) ∧
    ((∀ m x y b, ∃ res, move_is_possible m x y b = .ok res) ∧
    (∃ s0, tour_init 7 0 = .ok s0) ∧
    (∀ s, tour_reach 7 0 s →
      s.x ≤ 7 ∧ s.y ≤ 7 ∧
      (∃ res, while_body s = .ok res) ∧
      ∀ m dx dy, table_get MOVES_X m = some dx → table_get MOVES_Y m = some dy →
        move_is_possible m s.x s.y s.visited = .ok true →
        0 ≤ to_int s.x + dx ∧ to_int s.x + dx ≤ 7 ∧
        0 ≤ to_int s.y + dy ∧ to_int s.y + dy ≤ 7 ∧
        ∃ s', commit_move s m = .ok s' ∧ s'.x ≤ 7 ∧ s'.y ≤ 7 ∧
          (s'.x : Int) = to_int s.x + dx ∧ (s'.y : Int) = to_int s.y + dy) ∧
    (∀ fuel, tour_run fuel 7 0 ≠ .error Fault.out_of_bounds)) :=
  ⟨by decide, tour_greedy_bounds_safe 7 0 (by decide) (by decide)⟩

/-! ## The text written by the sweep -/

theorem tour_count_le {fuel x y : Nat} (hx : x < SIZE) (hy : y < SIZE) (hf : 64 ≤ fuel) :
    tour_count fuel x y ≤ 64 := by
  obtain ⟨s, n, hrun, hinv, -, -⟩ := tour_run_spec hx hy hf
  have h := tour_greedy_of_run hrun
  unfold tour_count
  rw [h]
  exact hinv.step_le

theorem fmt_u_small :
    ∀ v, v ≤ 64 → (fmt_u 3 v).length = 3 ∧ '\n' ∉ fmt_u 3 v ∧
      ' ' ∉ Nat.toDigits 10 v ∧ '\n' ∉ Nat.toDigits 10 v := by
  decide

theorem stdout_text_append (a b : List Printf) :
    stdout_text (a ++ b) = stdout_text a ++ stdout_text b := by
  unfold stdout_text
  rw [List.map_append, List.flatten_append]

theorem stdout_text_flatten (ls : List (List Printf)) :
    stdout_text ls.flatten = (ls.map stdout_text).flatten := by
  induction ls with
  | nil => rfl
  | cons l ls ih =>
    rw [List.flatten_cons, stdout_text_append, ih, List.map_cons, List.flatten_cons]

theorem stdout_text_counts (f : Nat → Nat) (xs : List Nat) :
    stdout_text (xs.map (fun x => Printf.count (f x))) =
      (xs.map (fun x => fmt_u 3 (f x) ++ [' '])).flatten := by
  unfold stdout_text
  rw [List.map_map]
  rfl

theorem stdout_text_grid (f : Nat → Nat → Nat) (ys xs : List Nat) :
    stdout_text ((ys.map
        (fun y => xs.map (fun x => Printf.count (f x y)) ++ [Printf.newline])).flatten) =
      (ys.map (fun y =>
        (xs.map (fun x => fmt_u 3 (f x y) ++ [' '])).flatten ++ ['\n'])).flatten := by
  rw [stdout_text_flatten, List.map_map]
  congr 1
  apply List.map_congr_left
  intro y _
  show stdout_text (xs.map (fun x => Printf.count (f x y)) ++ [Printf.newline]) = _
  rw [stdout_text_append, stdout_text_counts (fun x => f x y) xs]
  rfl

theorem text_lines_from_break (l rest : List Char) (hl : '\n' ∉ l) :
    ∀ cur, text_lines_from (l ++ '\n' :: rest) cur = (cur ++ l) :: text_lines_from rest [] := by
  induction l with
  | nil =>
    intro cur
    simp [text_lines_from]
  | cons ch l ih =>
    intro cur
    have hch : ch ≠ '\n' := by
      intro h
      exact hl (by rw [h]; exact List.mem_cons_self _ _)
    have hl2 : '\n' ∉ l := fun h => hl (List.mem_cons_of_mem _ h)
    rw [List.cons_append, text_lines_from, if_neg hch, ih hl2]
    simp

theorem text_lines_of_lines (ls : List (List Char)) (h : ∀ l, l ∈ ls → '\n' ∉ l) :
    text_lines ((ls.map (fun l => l ++ ['\n'])).flatten) = ls := by
  unfold text_lines
  induction ls with
  | nil => rfl
  | cons l ls ih =>
    rw [List.map_cons, List.flatten_cons, List.append_assoc, List.singleton_append,
      text_lines_from_break l _ (h l (List.mem_cons_self _ _)), List.nil_append,
      ih (fun l' hl' => h l' (List.mem_cons_of_mem _ hl'))]

theorem flatten_sep_eq_intercalate (sep : Char) :
    ∀ fs : List (List Char), fs ≠ [] →
      (fs.map (fun f => f ++ [sep])).flatten = List.intercalate [sep] fs ++ [sep] := by
  intro fs
  induction fs with
  | nil =>
    intro h
    exact absurd rfl h
  | cons a t ih =>
    intro _
    cases t with
    | nil => simp [List.intercalate]
    | cons b t =>
      have := ih (List.cons_ne_nil b t)
      simp only [List.intercalate, List.map_cons, List.flatten_cons, List.intersperse,
        List.append_assoc, List.singleton_append] at this ⊢
      rw [this]
      rfl

theorem count_breaks_of_lines (ls : List (List Char)) (h : ∀ l, l ∈ ls → '\n' ∉ l) :
    ((ls.map (fun l => l ++ ['\n'])).flatten).count '\n' = ls.length := by
  induction ls with
  | nil => rfl
  | cons l ls ih =>
    rw [List.map_cons, List.flatten_cons, List.count_append, List.count_append,
      List.count_eq_zero_of_not_mem (h l (List.mem_cons_self _ _)),
      ih (fun l' hl' => h l' (List.mem_cons_of_mem _ hl')), List.length_cons]
    simp only [List.count_singleton_self]
    omega

/-- C12: the text written by `greedy_tour_from_each_square` consists of
exactly 8 lines, each ended by a line break and holding 8 counts.  Every count
is written by `%3u`: its decimal digits, padded with spaces on the left to 3
characters (no count needs more).  The fields of a line are separated by a
single space, and one more space follows the last field of the line. -/
theorem sweep_text_format (fuel : Nat) (hf : 64 ≤ fuel) :
    ∃ out, greedy_tour_from_each_square fuel = .ok out ∧
      stdout_text out =
        ((List.range 8).map (fun y =>
          (List.intercalate [' '] ((List.range 8).map (fun x => fmt_u 3 (tour_count fuel x y)))
            ++ [' ']) ++ ['\n'])).flatten ∧
      (text_lines (stdout_text out)).length = 8 ∧
      (stdout_text out).count '\n' = 8 ∧
      ∀ r, r ≤ 7 →
        (text_lines (stdout_text out))[r]? =
          some (List.intercalate [' ']
            ((List.range 8).map (fun x => fmt_u 3 (tour_count fuel x r))) ++ [' ']) ∧
        ((List.range 8).map (fun x => fmt_u 3 (tour_count fuel x r))).length = 8 ∧
        ∀ c, c ≤ 7 →
          ∃ k, tour_greedy fuel c r = .ok k ∧ tour_count fuel c r = k ∧
            (fmt_u 3 k).length = 3 ∧
            fmt_u 3 k =
              List.replicate (3 - (Nat.toDigits 10 k).length) ' ' ++ Nat.toDigits 10 k ∧
            ' ' ∉ Nat.toDigits 10 k ∧ '\n' ∉ Nat.toDigits 10 k := by
  have hout := greedy_tour_from_each_square_eq hf
  have htext := stdout_text_grid (tour_count fuel) (List.range SIZE) (List.range SIZE)
  have hne : ∀ y, (List.range SIZE).map (fun x => fmt_u 3 (tour_count fuel x y)) ≠ [] := by
    intro y h
    have hl := congrArg List.length h
    simp [SIZE] at hl
  have hline : ∀ y, ((List.range SIZE).map
      (fun x => fmt_u 3 (tour_count fuel x y) ++ [' '])).flatten =
      List.intercalate [' '] ((List.range SIZE).map (fun x => fmt_u 3 (tour_count fuel x y)))
        ++ [' '] := by
    intro y
    rw [← flatten_sep_eq_intercalate ' ' _ (hne y), List.map_map]
    rfl
  simp only [hline] at htext
  have hshape : (List.range SIZE).map (fun y =>
      (List.intercalate [' '] ((List.range SIZE).map (fun x => fmt_u 3 (tour_count fuel x y)))
        ++ [' ']) ++ ['\n']) =
      ((List.range SIZE).map (fun y =>
        List.intercalate [' '] ((List.range SIZE).map (fun x => fmt_u 3 (tour_count fuel x y)))
          ++ [' '])).map (fun l => l ++ ['\n']) := by
    rw [List.map_map]
    rfl
  have hfield : ∀ x y, x < SIZE → y < SIZE →
      (fmt_u 3 (tour_count fuel x y)).length = 3 ∧ '\n' ∉ fmt_u 3 (tour_count fuel x y) ∧
      ' ' ∉ Nat.toDigits 10 (tour_count fuel x y) ∧
      '\n' ∉ Nat.toDigits 10 (tour_count fuel x y) :=
    fun x y hx hy => fmt_u_small _ (tour_count_le hx hy hf)
  have hclean : ∀ l, l ∈ (List.range SIZE).map (fun y =>
      List.intercalate [' '] ((List.range SIZE).map (fun x => fmt_u 3 (tour_count fuel x y)))
        ++ [' ']) → '\n' ∉ l := by
    intro l hl hmem
    obtain ⟨y, hy, rfl⟩ := List.mem_map.1 hl
    rw [← hline y] at hmem
    obtain ⟨fld, hfld, hin⟩ := List.mem_flatten.1 hmem
    obtain ⟨x, hx, rfl⟩ := List.mem_map.1 hfld
    rcases List.mem_append.1 hin with h1 | h1
    · exact (hfield x y (List.mem_range.1 hx) (List.mem_range.1 hy)).2.1 h1
    · exact absurd (List.mem_singleton.1 h1) (by decide)
  have hlines := text_lines_of_lines _ hclean
  rw [← hshape, ← htext] at hlines
  have hcount : (stdout_text (((List.range SIZE).map
      (fun y => (List.range SIZE).map
          (fun x => Printf.count (tour_count fuel x y)) ++ [Printf.newline])).flatten)).count
      '\n' = 8 := by
    rw [htext, hshape, count_breaks_of_lines _ hclean, List.length_map, List.length_range]
    rfl
  refine ⟨_, hout, htext, ?_, hcount, ?_⟩
  · rw [hlines, List.length_map, List.length_range]
    rfl
  · intro r hr
    have hr8 := lt_SIZE_of_le hr
    refine ⟨?_, ?_, ?_⟩
    · rw [hlines, List.getElem?_map, List.getElem?_range hr8]
      rfl
    · rw [List.length_map, List.length_range]
    · intro c hc
      have hc8 := lt_SIZE_of_le hc
      have hf4 := hfield c r hc8 hr8
      exact ⟨_, tour_greedy_eq_count hc8 hr8 hf, rfl, hf4.1, rfl, hf4.2.2.1, hf4.2.2.2⟩

/-- Witness of C12 with fuel 64. -/
theorem sweep_text_format_witness :
    64 ≤ 64 ∧
    ∃ out, greedy_tour_from_each_square 64 = .ok out ∧
      stdout_text out =
        ((List.range 8).map (fun y =>
          (List.intercalate [' '] ((List.range 8).map (fun x => fmt_u 3 (tour_count 64 x y)))
            ++ [' ']) ++ ['\n'])).flatten ∧
      (text_lines (stdout_text out)).length = 8 ∧
      (stdout_text out).count '\n' = 8 ∧
      ∀ r, r ≤ 7 →
        (text_lines (stdout_text out))[r]? =
          some (List.intercalate [' ']
            ((List.range 8).map (fun x => fmt_u 3 (tour_count 64 x r))) ++ [' ']) ∧
        ((List.range 8).map (fun x => fmt_u 3 (tour_count 64 x r))).length = 8 ∧
        ∀ c, c ≤ 7 →
          ∃ k, tour_greedy 64 c r = .ok k ∧ tour_count 64 c r = k ∧
            (fmt_u 3 k).length = 3 ∧
            fmt_u 3 k =
              List.replicate (3 - (Nat.toDigits 10 k).length) ' ' ++ Nat.toDigits 10 k ∧
            ' ' ∉ Nat.toDigits 10 k ∧ '\n' ∉ Nat.toDigits 10 k :=
  ⟨by decide, sweep_text_format 64 (by decide)⟩

/-- C13: for every move index `move_id ≥ MOVE_COUNT`, every position and
every board, `move_is_possible` returns the ordinary result `false`: the index
is outside both move tables (a read there would be out of range), and the
result is not a fault, so neither the tables nor the board are read. -/
theorem move_is_possible_index_out_of_range (move_id x y : Nat) (board : board_t)
    (hm : MOVE_COUNT ≤ move_id) :
    move_is_possible move_id x y board = .ok false ∧
    table_get MOVES_X move_id = none ∧ table_get MOVES_Y move_id = none := by
  refine ⟨?_, ?_, ?_⟩
  · unfold move_is_possible
    rw [if_pos hm]
  · unfold table_get
    exact List.getElem?_eq_none
      (by simp only [MOVES_X, MOVE_COUNT, List.length] at hm ⊢; omega)
  · unfold table_get
    exact List.getElem?_eq_none
      (by simp only [MOVES_Y, MOVE_COUNT, List.length] at hm ⊢; omega)

/-- Witness of C13: the index 8 at `(0, 0)` on the empty board. -/
theorem move_is_possible_index_out_of_range_witness :
    MOVE_COUNT ≤ 8 ∧
    (move_is_possible 8 0 0 board_zero = .ok false ∧
    table_get MOVES_X 8 = none ∧ table_get MOVES_Y 8 = none) :=
  ⟨by decide, move_is_possible_index_out_of_range 8 0 0 board_zero (by decide)⟩

/-- C14: the corner start `(0, 0)`: `tour_greedy(0, 0)` returns 36, which is
less than 64, and the knight gets stuck at `x = 0`, `y = 7`, the one cell
stamped 36. -/
theorem tour_greedy_corner_fixture (fuel : Nat) (hf : 64 ≤ fuel) :
    ∃ s n k, tour_run fuel 0 0 = .ok (s, n) ∧ tour_greedy fuel 0 0 = .ok k ∧
      k = 36 ∧ k < 64 ∧ s.x = 0 ∧ s.y = 7 ∧
      board_get s.visited 7 0 = some 36 ∧
      (∀ x y : Nat, board_get s.visited (y : Int) (x : Int) = some 36 → x = 0 ∧ y = 7) ∧
      stuck s.x s.y s.visited := by
  obtain ⟨s, n, hrun, hinv, hst, -⟩ :=
    tour_run_spec (lt_SIZE_of_le (Nat.zero_le 7)) (lt_SIZE_of_le (Nat.zero_le 7))
      (Nat.le_refl 64)
  have key : (tour_run 64 0 0).toOption.map
      (fun p => (p.1.step, p.1.x, p.1.y, board_get p.1.visited 7 0)) =
      some (36, 0, 7, some 36) := by rfl
  rw [hrun] at key
  simp only [Except.toOption, Option.map_some', Option.some.injEq, Prod.mk.injEq] at key
  obtain ⟨k1, k2, k3, k4⟩ := key
  have hrun2 := tour_run_mono hrun hf
  refine ⟨s, n, s.step, hrun2, tour_greedy_of_run hrun2, k1, by omega, k2, k3, k4, ?_, hst⟩
  intro x y hxy
  obtain ⟨r, c, e1, e2, e3⟩ := (board_get_eq_some_iff _ _ _ _).1 hxy
  obtain ⟨r0, c0, f1, f2, f3⟩ := (board_get_eq_some_iff _ _ _ _).1 k4
  have hsame := hinv.inj r c r0 c0 (by rw [e3]; decide) (by rw [e3, f3])
  have h1 : (r.val : Int) = (r0.val : Int) := by rw [hsame.1]
  have h2 : (c.val : Int) = (c0.val : Int) := by rw [hsame.2]
  omega

/-- Witness of C14 with fuel 64. -/
theorem tour_greedy_corner_fixture_witness :
    64 ≤ 64 ∧
    ∃ s n k, tour_run 64 0 0 = .ok (s, n) ∧ tour_greedy 64 0 0 = .ok k ∧
      k = 36 ∧ k < 64 ∧ s.x = 0 ∧ s.y = 7 ∧
      board_get s.visited 7 0 = some 36 ∧
      (∀ x y : Nat, board_get s.visited (y : Int) (x : Int) = some 36 → x = 0 ∧ y = 7) ∧
      stuck s.x s.y s.visited :=
  ⟨by decide, tour_greedy_corner_fixture 64 (by decide)⟩

/-- C15: for every start in `[0,7] x [0,7]`, on the board on entry to the loop
only the start square is stamped and at least one of the 8 moves is possible
from the start square; `tour_greedy` returns at least 2. -/
theorem tour_greedy_at_least_two (fuel start_x start_y : Nat)
    (hx : start_x ≤ 7) (hy : start_y ≤ 7) (hf : 64 ≤ fuel) :
    (∃ s0, tour_init start_x start_y = .ok s0 ∧
      s0.x = start_x ∧ s0.y = start_y ∧
      (∀ (x y : Nat) (v : Int), board_get s0.visited (y : Int) (x : Int) = some v → v ≠ 0 →
        x = start_x ∧ y = start_y) ∧
      ∃ m, m < MOVE_COUNT ∧ move_is_possible m s0.x s0.y s0.visited = .ok true) ∧
    ∃ k, tour_greedy fuel start_x start_y = .ok k ∧ 2 ≤ k := by
  have hx8 := lt_SIZE_of_le hx
  have hy8 := lt_SIZE_of_le hy
  constructor
  · obtain ⟨s0, hinit, hinv0, hstep0⟩ := tour_init_spec hx8 hy8
    have hxy : s0.x = start_x ∧ s0.y = start_y := by
      unfold tour_init at hinit
      split at hinit
      · rw [← Except.ok.inj hinit]
        exact ⟨rfl, rfl⟩
      · exact absurd hinit (by simp)
    refine ⟨s0, hinit, hxy.1, hxy.2, ?_, hinv0.move_exists hstep0⟩
    intro x y v hv hne
    obtain ⟨r, c, e1, e2, e3⟩ := (board_get_eq_some_iff _ _ _ _).1 hv
    obtain ⟨r0, c0, f1, f2, f3⟩ := (board_get_eq_some_iff _ _ _ _).1 hinv0.start
    have hlo := hinv0.lo r c
    have hhi := hinv0.hi r c
    have hsame := hinv0.inj r c r0 c0 (by rw [e3]; exact hne) (by rw [f3]; omega)
    have h1 : (r.val : Int) = (r0.val : Int) := by rw [hsame.1]
    have h2 : (c.val : Int) = (c0.val : Int) := by rw [hsame.2]
    omega
  · obtain ⟨s, n, hrun, hinv, hst, -⟩ := tour_run_spec hx8 hy8 hf
    refine ⟨s.step, tour_greedy_of_run hrun, ?_⟩
    by_contra hlt
    have h1 : s.step = 1 := by
      have := hinv.step_pos
      omega
    obtain ⟨m, hm, htrue⟩ := hinv.move_exists h1
    rw [hst m hm] at htrue
    exact absurd (Except.ok.inj htrue) (by decide)

/-- Witness of C15 at the corner start `(7, 7)`. -/
theorem tour_greedy_at_least_two_witness :
    (7 ≤ 7 ∧ 7 ≤ 7 ∧ 64 ≤ 64) ∧
    ((∃ s0, tour_init 7 7 = .ok s0 ∧
      s0.x = 7 ∧ s0.y = 7 ∧
      (∀ (x y : Nat) (v : Int), board_get s0.visited (y : Int) (x : Int) = some v → v ≠ 0 →
        x = 7 ∧ y = 7) ∧
      ∃ m, m < MOVE_COUNT ∧ move_is_possible m s0.x s0.y s0.visited = .ok true) ∧
    ∃ k, tour_greedy 64 7 7 = .ok k ∧ 2 ≤ k) :=
  ⟨by decide, tour_greedy_at_least_two 64 7 7 (by decide) (by decide) (by decide)⟩

end KnightGreedy
